import Mathlib

/-!
# Verification of the gm-sm2-cipher SM2 encryption service

This development embeds the SM2 hybrid public-key encryption scheme offered
by the repository (key generation, encryption with the `C1C2C3` / `C1C3C2`
layouts, and decryption with two-layout fallback) together with the
Node-level process wrapper, and proves the specified properties about them.

The cryptographic engine itself is delegated by the repository to an external
library (BouncyCastle's `SM2Engine`), whose source is not part of the
repository; the engine-level definitions below are therefore modelled from
the specification's algorithm descriptions (spec sections 4.1 to 4.5), while
the wrapper-level definitions (`privHex` padding, the Node spawn/trim logic)
are translated directly from `SM2Service.java` and the TypeScript wrapper.

Bytes are modelled as natural numbers below 256, byte strings as `List ℕ`,
and the curve group abstractly as an additive commutative group, with the
coordinate, point-decoding and hash functions as parameters constrained by
the laws the specification states for them (32-byte hash output,
encode/decode inversion, base point of order `n`).
-/

/-- Big-endian 32-byte encoding of a natural number (used for the 32-byte
coordinate fields `X`, `Y` of the uncompressed point encoding and for the
private-key scalar). -/
def bytes32 (m : ℕ) : List ℕ :=
  (List.range 32).map (fun i => m / 256 ^ (31 - i) % 256)

/-- Big-endian 4-byte encoding of the 32-bit KDF counter. -/
def be32 (c : ℕ) : List ℕ :=
  [c / 2 ^ 24 % 256, c / 2 ^ 16 % 256, c / 2 ^ 8 % 256, c % 256]

/-- Modelled from the spec (section 4.3, the external hash collaborator is a
parameter `H`): the counter-based KDF block concatenation
`H(Z ∥ 1) ∥ H(Z ∥ 2) ∥ … ∥ H(Z ∥ nb)`. -/
def kdfBlocks (H : List ℕ → List ℕ) (z : List ℕ) : ℕ → List ℕ
  | 0 => []
  | nb + 1 => kdfBlocks H z nb ++ H (z ++ be32 (nb + 1))

/-- Modelled from the spec (section 4.3): `kdf(Z, outLen)` concatenates
successive digests `H(Z ∥ counter)` for counter = 1, 2, … and truncates to
exactly `outLen` bytes. -/
def kdf (H : List ℕ → List ℕ) (z : List ℕ) (outLen : ℕ) : List ℕ :=
  (kdfBlocks H z ((outLen + 31) / 32)).take outLen

/-- Modelled from the spec (sections 4.3/4.4): the degenerate-keystream test.
A keystream is degenerate when it is non-empty and entirely zero bytes (a
zero-length keystream for a zero-length plaintext is explicitly valid per
section 4.4). -/
def degenerate (t : List ℕ) : Bool :=
  !t.isEmpty && t.all (fun b => b == 0)

/-- Byte-wise XOR masking of a byte string with a keystream. -/
def maskBytes (xs t : List ℕ) : List ℕ :=
  List.zipWith (fun a b => a ^^^ b) xs t

/-- Modelled from the spec (section 4.1): the 65-byte uncompressed point
encoding `0x04 ∥ X(32B) ∥ Y(32B)`, with the coordinate byte functions `xC`,
`yC` as parameters. -/
def pointBytes {Pt : Type} (xC yC : Pt → ℕ) (P : Pt) : List ℕ :=
  4 :: (bytes32 (xC P) ++ bytes32 (yC P))

/-- The KDF input `x2 ∥ y2` derived from the shared point `S`. -/
def zBytes {Pt : Type} (xC yC : Pt → ℕ) (S : Pt) : List ℕ :=
  bytes32 (xC S) ++ bytes32 (yC S)

/-- Modelled from the spec (section 4.4 step 6): the MAC component
`C3 = H(x2 ∥ plaintext ∥ y2)`. -/
def mac {Pt : Type} (H : List ℕ → List ℕ) (xC yC : Pt → ℕ) (S : Pt)
    (pt : List ℕ) : List ℕ :=
  H (bytes32 (xC S) ++ pt ++ bytes32 (yC S))

/-- The two ciphertext layouts (spec section 3, `EncodingMode`). -/
inductive EncodingMode : Type
  | C1C2C3 : EncodingMode
  | C1C3C2 : EncodingMode
deriving DecidableEq

/-- Modelled from the spec (section 4.4 step 7): byte concatenation of the
ciphertext components in the order given by the encoding mode. -/
def assemble (mode : EncodingMode) (c1 c2 c3 : List ℕ) : List ℕ :=
  match mode with
  | .C1C2C3 => c1 ++ c2 ++ c3
  | .C1C3C2 => c1 ++ c3 ++ c2

/-- The error taxonomy of spec section 7 (the subset reachable from the
operations modelled here). -/
inductive SM2Error : Type
  | InvalidKey : SM2Error
  | InvalidCiphertextLength : SM2Error
  | DecryptionFailed : SM2Error
  | OperationFailed : SM2Error
deriving DecidableEq

section Engine

variable {Pt : Type} [AddCommGroup Pt] [DecidableEq Pt]

/-- Modelled from the spec (section 4.4, one attempt of the encryption
algorithm, determinized in the ephemeral scalar `k`): computes
`C1 = k·G`, `S = k·Q`, `t = kdf(x2 ∥ y2, len(plaintext))`,
`C2 = plaintext XOR t`, `C3 = H(x2 ∥ plaintext ∥ y2)`, and assembles per
`mode` (defaulting to `C1C3C2` as in the caller-facing contract of
section 6). Returns `none` on the internal retry triggers (`S` at
infinity, degenerate keystream). -/
def encryptWith (G : Pt) (xC yC : Pt → ℕ) (H : List ℕ → List ℕ) (Q : Pt)
    (k : ℕ) (pt : List ℕ) (mode : EncodingMode := .C1C3C2) :
    Option (List ℕ) :=
  let S := k • Q
  if S = 0 then none
  else
    let t := kdf H (zBytes xC yC S) pt.length
    if degenerate t then none
    else some (assemble mode (pointBytes xC yC (k • G)) (maskBytes pt t)
      (mac H xC yC S pt))

/-- Modelled from the spec (section 4.4): the bounded retry loop around one
encryption attempt, consuming a list of sampled ephemeral scalars and
failing with `OperationFailed` when all attempts are exhausted. -/
def encryptLoop (G : Pt) (xC yC : Pt → ℕ) (H : List ℕ → List ℕ) (Q : Pt)
    (ks : List ℕ) (pt : List ℕ) (mode : EncodingMode := .C1C3C2) :
    Except SM2Error (List ℕ) :=
  match ks with
  | [] => .error .OperationFailed
  | k :: rest =>
    match encryptWith G xC yC H Q k pt mode with
    | some ct => .ok ct
    | none => encryptLoop G xC yC H Q rest pt mode

/-- Modelled from the spec (section 4.5 steps 1-8): one decryption attempt
under a given layout. Splits off `C1` (first 65 bytes), locates `C2`/`C3`
per the layout, decodes `C1`, computes `S = d·C1`, rederives the keystream,
unmasks, and verifies the MAC; `none` on any failed check. -/
def attemptDecrypt (xC yC : Pt → ℕ) (decodePt : List ℕ → Option Pt)
    (H : List ℕ → List ℕ) (d : ℕ) (ct : List ℕ) (mode : EncodingMode) :
    Option (List ℕ) :=
  let rest := ct.drop 65
  let c2 := match mode with
    | .C1C3C2 => rest.drop 32
    | .C1C2C3 => rest.take (rest.length - 32)
  let c3 := match mode with
    | .C1C3C2 => rest.take 32
    | .C1C2C3 => rest.drop (rest.length - 32)
  match decodePt (ct.take 65) with
  | none => none
  | some C1pt =>
    let S := d • C1pt
    if S = 0 then none
    else
      let t := kdf H (zBytes xC yC S) c2.length
      if degenerate t then none
      else
        let pt := maskBytes c2 t
        if mac H xC yC S pt = c3 then some pt else none

/-- Modelled from the spec (section 4.5): full decryption. Rejects
ciphertexts shorter than 97 bytes with `InvalidCiphertextLength`, then
attempts the `C1C3C2` layout first and falls back to `C1C2C3`, reporting
the single uniform `DecryptionFailed` when both attempts fail. -/
def decrypt (xC yC : Pt → ℕ) (decodePt : List ℕ → Option Pt)
    (H : List ℕ → List ℕ) (d : ℕ) (ct : List ℕ) :
    Except SM2Error (List ℕ) :=
  if ct.length < 97 then .error .InvalidCiphertextLength
  else
    match attemptDecrypt xC yC decodePt H d ct .C1C3C2 with
    | some pt => .ok pt
    | none =>
      match attemptDecrypt xC yC decodePt H d ct .C1C2C3 with
      | some pt => .ok pt
      | none => .error .DecryptionFailed

end Engine

/-- Lowercase hexadecimal digit character for a value below 16
(`0`-`9` then `a`-`f`). -/
def hexDigitChar (x : ℕ) : Char :=
  if x < 10 then Char.ofNat (48 + x) else Char.ofNat (87 + x)

/-- Lowercase hexadecimal rendering of a natural number with no leading
zeros, as produced by `BigInteger.toString(16)` in `SM2Service.java`. -/
def natHex (m : ℕ) : List Char :=
  (Nat.digits 16 m).reverse.map hexDigitChar

/-- The private-key hex rendering of `SM2Service.generateKeyPair`
(`SM2Service.java` lines 117-121): lowercase hex, left-zero-padded to 64
characters. -/
def privHex (d : ℕ) : List Char :=
  List.replicate (64 - (natHex d).length) '0' ++ natHex d

/-- Two-character lowercase hex rendering of one byte. -/
def byteHex (b : ℕ) : List Char :=
  [hexDigitChar (b / 16), hexDigitChar (b % 16)]

/-- Lowercase hex rendering of a byte string (`Hex.toHexString`). -/
def bytesHex (bs : List ℕ) : List Char :=
  bs.flatMap byteHex

/-- Modelled from the spec (section 4.2) together with the hex-padding code
of `SM2Service.generateKeyPair` (`SM2Service.java` lines 107-128): the key
pair derived from a sampled private scalar `d`, as the pair of the 64-char
private-key hex and the 130-char uncompressed public-key hex. -/
def generateKeyPair {Pt : Type} [AddCommGroup Pt] (G : Pt)
    (xC yC : Pt → ℕ) (d : ℕ) : List Char × List Char :=
  (privHex d, bytesHex (pointBytes xC yC (d • G)))

/-! ## The Node-level wrapper (`src/sm2-service.ts`, given as `unnamed/part_000`) -/

/-- JavaScript `a || b` on strings: the empty string is falsy. -/
def jsOr (a b : List Char) : List Char :=
  if a.isEmpty then b else a

/-- The whitespace characters relevant to this system's data flow. -/
def wsChars : List Char :=
  [' ', '\t', '\n', '\r']

/-- Whitespace test used by JavaScript `String.prototype.trim`. -/
def isWs (c : Char) : Bool :=
  wsChars.contains c

/-- Strip trailing whitespace. -/
def trimRight (s : List Char) : List Char :=
  (s.reverse.dropWhile isWs).reverse

/-- JavaScript `String.prototype.trim`: strip leading and trailing
whitespace. -/
def trimChars (s : List Char) : List Char :=
  (trimRight s).dropWhile isWs

/-- Decimal rendering of the child-process exit code as interpolated by the
wrapper's template string (`null` for a missing code). -/
def codeChars (code : Option Int) : List Char :=
  match code with
  | none => ['n', 'u', 'l', 'l']
  | some i =>
    (if i < 0 then ['-'] else []) ++
      ((Nat.digits 10 i.natAbs).reverse.map (fun d => Char.ofNat (48 + d)))

/-- The `close` handler of the Node-level `decrypt`
(`unnamed/part_000` lines 126-132): on exit code 0 it resolves with
`stdout.trim()`, otherwise it rejects with the stderr-based message. -/
def nodeDecryptResolve (code : Option Int) (stdout stderr : List Char) :
    Except (List Char) (List Char) :=
  if code = some 0 then .ok (trimChars stdout)
  else
    .error ("SM2 decryption failed: ".data ++
      jsOr stderr ("Process exited with code ".data ++ codeChars code))

/-- The state of the Node-level `SM2Service` after its constructor
(`unnamed/part_000` lines 14-16): `this.publicKey = publicKey || ''`. -/
structure NodeSM2Service : Type where
  privateKey : List Char
  publicKey : List Char

/-- The Node-level constructor with an optional public key. -/
def mkSM2Service (privateKey : List Char) (publicKey : Option (List Char)) :
    NodeSM2Service :=
  { privateKey := privateKey, publicKey := jsOr (publicKey.getD []) [] }

/-- Observable outcome of invoking the Node-level `encrypt`: either the
Java child process is spawned with the given argument vector, or the call
rejects with an error message before any process is spawned. -/
inductive NodeAction : Type
  | spawned : List (List Char) → NodeAction
  | rejected : List Char → NodeAction
deriving DecidableEq

/-- Whether a Node-level outcome spawned the child process. -/
def isSpawned (a : NodeAction) : Bool :=
  match a with
  | .spawned _ => true
  | .rejected _ => false

/-- The Node-level `encrypt` up to its first external effect
(`unnamed/part_000` lines 50-64): resolves the effective public key as
`publicKey || this.publicKey`, rejects with the fixed message when it is
empty, and otherwise spawns the Java process with the encryption argument
vector. -/
def nodeEncrypt (svc : NodeSM2Service) (jarPath : List Char)
    (plaintext : List Char) (publicKey : Option (List Char)) : NodeAction :=
  let pubKey := jsOr (publicKey.getD []) svc.publicKey
  if pubKey.isEmpty then
    .rejected "Public key is required for encryption".data
  else
    .spawned ["-jar".data, jarPath, "--encrypt".data, plaintext,
      "--public-key".data, pubKey]

/-! ## A concrete instantiation of the engine parameters

The engine definitions are parameterized by the curve group, the coordinate
functions, the point decoder and the hash. The following small instantiation
(the additive group `ZMod 5` with generator `1`, order `5`) satisfies every
law the theorems assume and makes all operations kernel-evaluable; it is
used to exhibit concrete witnesses. -/

/-- A 32-byte-output hash for the concrete instantiation (input-dependent
first byte, never producing a zero byte, so keystreams are never
degenerate). -/
def toyH (b : List ℕ) : List ℕ :=
  ((b.sum + 7 * b.length) % 255 + 1) :: List.replicate 31 1

/-- Coordinate function `x` for the concrete instantiation. -/
def toyX (P : ZMod 5) : ℕ := P.val

/-- Coordinate function `y` for the concrete instantiation. -/
def toyY (P : ZMod 5) : ℕ := (P.val * 3 + 1) % 5

/-- Point decoder for the concrete instantiation: accepts only 65-byte
strings with leading byte 4 and reads the point back from the low byte of
the `X` coordinate field. -/
def toyDecode (b : List ℕ) : Option (ZMod 5) :=
  if b.length = 65 ∧ b.take 1 = [4] then some ((b.getD 32 0 : ℕ) : ZMod 5)
  else none

/-! ## Byte-level helper lemmas -/

lemma bytes32_length (m : ℕ) : (bytes32 m).length = 32 := by
  simp [bytes32]

lemma bytes32_lt (m : ℕ) : ∀ b ∈ bytes32 m, b < 256 := by
  intro b hb
  simp only [bytes32, List.mem_map, List.mem_range] at hb
  obtain ⟨i, _, rfl⟩ := hb
  exact Nat.mod_lt _ (by norm_num)

lemma pointBytes_length {Pt : Type} (xC yC : Pt → ℕ) (P : Pt) :
    (pointBytes xC yC P).length = 65 := by
  simp [pointBytes, bytes32_length]

lemma pointBytes_lt {Pt : Type} (xC yC : Pt → ℕ) (P : Pt) :
    ∀ b ∈ pointBytes xC yC P, b < 256 := by
  intro b hb
  simp only [pointBytes, List.mem_cons, List.mem_append] at hb
  rcases hb with rfl | hb | hb
  · norm_num
  · exact bytes32_lt _ b hb
  · exact bytes32_lt _ b hb

lemma kdfBlocks_length (H : List ℕ → List ℕ) (z : List ℕ)
    (hH : ∀ b, (H b).length = 32) (nb : ℕ) :
    (kdfBlocks H z nb).length = 32 * nb := by
  induction nb with
  | zero => simp [kdfBlocks]
  | succ nb ih => simp [kdfBlocks, ih, hH]; ring

lemma le_ceil_mul (l : ℕ) : l ≤ 32 * ((l + 31) / 32) := by
  have h1 := Nat.div_add_mod (l + 31) 32
  have h2 : (l + 31) % 32 < 32 := Nat.mod_lt _ (by norm_num)
  omega

lemma kdf_length (H : List ℕ → List ℕ) (z : List ℕ)
    (hH : ∀ b, (H b).length = 32) (l : ℕ) : (kdf H z l).length = l := by
  simp only [kdf, List.length_take, kdfBlocks_length H z hH]
  exact Nat.min_eq_left (le_ceil_mul l)

lemma maskBytes_length (xs t : List ℕ) :
    (maskBytes xs t).length = min xs.length t.length := by
  simp [maskBytes]

lemma mask_cancel : ∀ (xs t : List ℕ), xs.length = t.length →
    maskBytes (maskBytes xs t) t = xs := by
  intro xs
  induction xs with
  | nil => intro t _; simp [maskBytes]
  | cons a xs ih =>
    intro t hlen
    cases t with
    | nil => simp at hlen
    | cons b t =>
      have hlen2 : xs.length = t.length := by simpa using hlen
      simp only [maskBytes, List.zipWith_cons_cons]
      exact congrArg₂ List.cons (Nat.xor_cancel_right b a) (ih t hlen2)

lemma assemble_length (mode : EncodingMode) (c1 c2 c3 : List ℕ) :
    (assemble mode c1 c2 c3).length = c1.length + c2.length + c3.length := by
  cases mode <;> simp [assemble] <;> omega

lemma take_append_of_length {α : Type} (l1 l2 : List α) (n : ℕ)
    (h : l1.length = n) : (l1 ++ l2).take n = l1 := by
  subst h; exact List.take_left l1 l2

lemma drop_append_of_length {α : Type} (l1 l2 : List α) (n : ℕ)
    (h : l1.length = n) : (l1 ++ l2).drop n = l2 := by
  subst h; exact List.drop_left l1 l2

/-! ## Group-level helper lemmas -/

section GroupLemmas

variable {Pt : Type} [AddCommGroup Pt]

lemma nsmul_nsmul_comm (G : Pt) (d k : ℕ) : k • d • G = d • k • G := by
  rw [← mul_nsmul G d k, ← mul_nsmul G k d, mul_comm]

lemma nsmul_ne_zero_of_lt_ord {G : Pt} {n k : ℕ}
    (hord : addOrderOf G = n) (hk0 : 0 < k) (hkn : k < n) : k • G ≠ 0 := by
  intro h
  have hdvd : addOrderOf G ∣ k := addOrderOf_dvd_iff_nsmul_eq_zero.mpr h
  rw [hord] at hdvd
  exact absurd (Nat.le_of_dvd hk0 hdvd) (not_le_of_lt hkn)

lemma nsmul_inj_of_lt {G : Pt} {n k1 k2 : ℕ}
    (hord : addOrderOf G = n) (h12 : k1 < k2) (hk2 : k2 < n)
    (heq : k1 • G = k2 • G) : False := by
  have hsub : (k2 - k1) • G + k1 • G = k2 • G := by
    rw [← add_nsmul, Nat.sub_add_cancel (le_of_lt h12)]
  rw [← heq, add_left_eq_self] at hsub
  exact nsmul_ne_zero_of_lt_ord hord (by omega) (by omega) hsub

lemma prod_nsmul_ne_zero {G : Pt} {n k d : ℕ}
    (hord : addOrderOf G = n) (hprime : n.Prime)
    (hk0 : 0 < k) (hkn : k < n) (hd0 : 0 < d) (hdn : d < n) :
    k • d • G ≠ 0 := by
  intro h
  rw [← mul_nsmul G d k] at h
  have hdvd : n ∣ d * k := by
    rw [← hord]; exact addOrderOf_dvd_iff_nsmul_eq_zero.mpr h
  rcases (Nat.Prime.dvd_mul hprime).mp hdvd with hdd | hdk
  · exact absurd (Nat.le_of_dvd hd0 hdd) (not_le_of_lt hdn)
  · exact absurd (Nat.le_of_dvd hk0 hdk) (not_le_of_lt hkn)

end GroupLemmas

/-! ## Engine-level helper lemmas -/

section EngineLemmas

variable {Pt : Type} [AddCommGroup Pt] [DecidableEq Pt]
variable (G : Pt) (xC yC : Pt → ℕ) (decodePt : List ℕ → Option Pt)
variable (H : List ℕ → List ℕ)

lemma encryptWith_some_elim {Q : Pt} {k : ℕ} {pt ct : List ℕ}
    {mode : EncodingMode}
    (henc : encryptWith G xC yC H Q k pt mode = some ct) :
    k • Q ≠ 0 ∧
    degenerate (kdf H (zBytes xC yC (k • Q)) pt.length) = false ∧
    ct = assemble mode (pointBytes xC yC (k • G))
      (maskBytes pt (kdf H (zBytes xC yC (k • Q)) pt.length))
      (mac H xC yC (k • Q) pt) := by
  by_cases hS : k • Q = 0
  · simp [encryptWith, hS] at henc
  · by_cases ht : degenerate (kdf H (zBytes xC yC (k • Q)) pt.length) = true
    · simp [encryptWith, hS, ht] at henc
    · have ht2 : degenerate (kdf H (zBytes xC yC (k • Q)) pt.length) = false :=
        Bool.eq_false_iff.mpr ht
      refine ⟨hS, ht2, ?_⟩
      simp [encryptWith, hS, ht2] at henc
      exact henc.symm

lemma encryptWith_length {Q : Pt} {k : ℕ} {pt ct : List ℕ}
    {mode : EncodingMode} (hH : ∀ b, (H b).length = 32)
    (henc : encryptWith G xC yC H Q k pt mode = some ct) :
    ct.length = 97 + pt.length := by
  obtain ⟨_, _, hct⟩ := encryptWith_some_elim G xC yC H henc
  subst hct
  rw [assemble_length, pointBytes_length, maskBytes_length,
    kdf_length H _ hH]
  simp only [mac, hH, Nat.min_self]
  omega

lemma attemptDecrypt_roundtrip_C1C3C2 {d k : ℕ} {pt ct : List ℕ}
    (hH : ∀ b, (H b).length = 32)
    (hdec : ∀ P : Pt, P ≠ 0 → decodePt (pointBytes xC yC P) = some P)
    (henc : encryptWith G xC yC H (d • G) k pt .C1C3C2 = some ct) :
    attemptDecrypt xC yC decodePt H d ct .C1C3C2 = some pt := by
  obtain ⟨hS, ht, hct⟩ := encryptWith_some_elim G xC yC H henc
  have hkG : k • G ≠ 0 := by
    intro h
    exact hS (by rw [nsmul_nsmul_comm, h, smul_zero])
  rw [nsmul_nsmul_comm G d k] at hS ht hct
  have htlen : (kdf H (zBytes xC yC (d • k • G)) pt.length).length = pt.length :=
    kdf_length H _ hH _
  have hc2len :
      (maskBytes pt (kdf H (zBytes xC yC (d • k • G)) pt.length)).length =
        pt.length := by
    rw [maskBytes_length, htlen]; omega
  have htake65 : ct.take 65 = pointBytes xC yC (k • G) := by
    rw [hct]
    show (pointBytes xC yC (k • G) ++ _ ++ _).take 65 = _
    rw [List.append_assoc]
    exact take_append_of_length _ _ _ (pointBytes_length _ _ _)
  have hdrop65 : ct.drop 65 =
      mac H xC yC (d • k • G) pt ++
        maskBytes pt (kdf H (zBytes xC yC (d • k • G)) pt.length) := by
    rw [hct]
    show (pointBytes xC yC (k • G) ++ _ ++ _).drop 65 = _
    rw [List.append_assoc]
    exact drop_append_of_length _ _ _ (pointBytes_length _ _ _)
  have htake32 : (ct.drop 65).take 32 = mac H xC yC (d • k • G) pt := by
    rw [hdrop65]
    exact take_append_of_length _ _ _ (hH _)
  have hdrop32 : (ct.drop 65).drop 32 =
      maskBytes pt (kdf H (zBytes xC yC (d • k • G)) pt.length) := by
    rw [hdrop65]
    exact drop_append_of_length _ _ _ (hH _)
  simp only [attemptDecrypt, htake65, htake32, hdrop32,
    hdec (k • G) hkG, if_neg hS, ht, Bool.false_eq_true, if_false, hc2len,
    mask_cancel pt _ htlen.symm]
  simp [hS, ht, hc2len, mask_cancel pt _ htlen.symm]

lemma attemptDecrypt_roundtrip_C1C2C3 {d k : ℕ} {pt ct : List ℕ}
    (hH : ∀ b, (H b).length = 32)
    (hdec : ∀ P : Pt, P ≠ 0 → decodePt (pointBytes xC yC P) = some P)
    (henc : encryptWith G xC yC H (d • G) k pt .C1C2C3 = some ct) :
    attemptDecrypt xC yC decodePt H d ct .C1C2C3 = some pt := by
  obtain ⟨hS, ht, hct⟩ := encryptWith_some_elim G xC yC H henc
  have hkG : k • G ≠ 0 := by
    intro h
    exact hS (by rw [nsmul_nsmul_comm, h, smul_zero])
  rw [nsmul_nsmul_comm G d k] at hS ht hct
  have htlen : (kdf H (zBytes xC yC (d • k • G)) pt.length).length = pt.length :=
    kdf_length H _ hH _
  have hc2len :
      (maskBytes pt (kdf H (zBytes xC yC (d • k • G)) pt.length)).length =
        pt.length := by
    rw [maskBytes_length, htlen]; omega
  have htake65 : ct.take 65 = pointBytes xC yC (k • G) := by
    rw [hct]
    show (pointBytes xC yC (k • G) ++ _ ++ _).take 65 = _
    rw [List.append_assoc]
    exact take_append_of_length _ _ _ (pointBytes_length _ _ _)
  have hdrop65 : ct.drop 65 =
      maskBytes pt (kdf H (zBytes xC yC (d • k • G)) pt.length) ++
        mac H xC yC (d • k • G) pt := by
    rw [hct]
    show (pointBytes xC yC (k • G) ++ _ ++ _).drop 65 = _
    rw [List.append_assoc]
    exact drop_append_of_length _ _ _ (pointBytes_length _ _ _)
  have hmaclen : (mac H xC yC (d • k • G) pt).length = 32 := hH _
  have hrestlen : (ct.drop 65).length - 32 = pt.length := by
    rw [hdrop65, List.length_append, hc2len, hmaclen]
    omega
  have htakeC2 : (ct.drop 65).take ((ct.drop 65).length - 32) =
      maskBytes pt (kdf H (zBytes xC yC (d • k • G)) pt.length) := by
    rw [hrestlen, hdrop65]
    exact take_append_of_length _ _ _ hc2len
  have hdropC3 : (ct.drop 65).drop ((ct.drop 65).length - 32) =
      mac H xC yC (d • k • G) pt := by
    rw [hrestlen, hdrop65]
    exact drop_append_of_length _ _ _ hc2len
  simp only [attemptDecrypt, htake65, htakeC2, hdropC3,
    hdec (k • G) hkG, if_neg hS, ht, Bool.false_eq_true, if_false, hc2len,
    mask_cancel pt _ htlen.symm]
  simp [hS, ht, hc2len, mask_cancel pt _ htlen.symm]

end EngineLemmas

section DecryptLemmas

variable {Pt : Type} [AddCommGroup Pt] [DecidableEq Pt]
variable (G : Pt) (xC yC : Pt → ℕ) (decodePt : List ℕ → Option Pt)
variable (H : List ℕ → List ℕ)

lemma decrypt_roundtrip_of_encryptWith {d k : ℕ} {pt ct : List ℕ}
    (hH : ∀ b, (H b).length = 32)
    (hdec : ∀ P : Pt, P ≠ 0 → decodePt (pointBytes xC yC P) = some P)
    (henc : encryptWith G xC yC H (d • G) k pt .C1C3C2 = some ct) :
    decrypt xC yC decodePt H d ct = .ok pt := by
  have hlen := encryptWith_length G xC yC H hH henc
  have hno : ¬ ct.length < 97 := by omega
  have hatt := attemptDecrypt_roundtrip_C1C3C2 G xC yC decodePt H hH hdec henc
  simp [decrypt, hno, hatt]

lemma encryptLoop_roundtrip {d : ℕ} {pt : List ℕ}
    (hH : ∀ b, (H b).length = 32)
    (hdec : ∀ P : Pt, P ≠ 0 → decodePt (pointBytes xC yC P) = some P) :
    ∀ (ks : List ℕ) (ct : List ℕ),
      encryptLoop G xC yC H (d • G) ks pt .C1C3C2 = .ok ct →
      decrypt xC yC decodePt H d ct = .ok pt := by
  intro ks
  induction ks with
  | nil => intro ct h; simp [encryptLoop] at h
  | cons k rest ih =>
    intro ct h
    cases hk : encryptWith G xC yC H (d • G) k pt .C1C3C2 with
    | some ct2 =>
      simp only [encryptLoop, hk] at h
      cases h
      exact decrypt_roundtrip_of_encryptWith G xC yC decodePt H hH hdec hk
    | none =>
      simp only [encryptLoop, hk] at h
      exact ih ct h

end DecryptLemmas

/-! ## Hex-format helper lemmas -/

/-- Whether a character belongs to the lowercase hex alphabet
(a decimal digit or one of `a` to `f`). -/
def isLowerHex (c : Char) : Bool :=
  ('0' ≤ c && c ≤ '9') || ('a' ≤ c && c ≤ 'f')

lemma hexDigitChar_hex {x : ℕ} (hx : x < 16) :
    isLowerHex (hexDigitChar x) = true := by
  interval_cases x <;> decide

lemma natHex_length_le {d L : ℕ} (hd : d < 16 ^ L) : (natHex d).length ≤ L := by
  rcases Nat.eq_zero_or_pos d with rfl | hd0
  · simp [natHex]
  · by_contra hlen
    push_neg at hlen
    have hlen2 : (natHex d).length = (Nat.digits 16 d).length := by
      simp [natHex]
    rw [hlen2] at hlen
    have h1 : 16 ^ (L + 1) ≤ 16 ^ (Nat.digits 16 d).length :=
      Nat.pow_le_pow_right (by norm_num) (by omega)
    have h2 : 16 ^ (Nat.digits 16 d).length ≤ 16 * d :=
      Nat.base_pow_length_digits_le 16 d (by norm_num) (by omega)
    have h3 : 16 * 16 ^ L ≤ 16 * d := by
      calc 16 * 16 ^ L = 16 ^ (L + 1) := by ring
        _ ≤ 16 * d := le_trans h1 h2
    have h4 : 16 ^ L ≤ d := Nat.le_of_mul_le_mul_left h3 (by norm_num)
    exact absurd h4 (not_le_of_lt hd)

lemma privHex_length {d : ℕ} (hd : d < 16 ^ 64) : (privHex d).length = 64 := by
  have h := natHex_length_le hd
  simp only [privHex, List.length_append, List.length_replicate]
  omega

lemma natHex_all_hex (d : ℕ) : ∀ c ∈ natHex d, isLowerHex c = true := by
  intro c hc
  simp only [natHex, List.mem_map, List.mem_reverse] at hc
  obtain ⟨x, hx, rfl⟩ := hc
  exact hexDigitChar_hex (Nat.digits_lt_base (by norm_num) hx)

lemma privHex_all_hex (d : ℕ) : ∀ c ∈ privHex d, isLowerHex c = true := by
  intro c hc
  rcases List.mem_append.mp hc with hc | hc
  · rw [(List.eq_of_mem_replicate hc)]; decide
  · exact natHex_all_hex d c hc

lemma byteHex_all_hex {b : ℕ} (hb : b < 256) :
    ∀ c ∈ byteHex b, isLowerHex c = true := by
  intro c hc
  simp only [byteHex, List.mem_cons, List.not_mem_nil, or_false] at hc
  rcases hc with rfl | rfl
  · exact hexDigitChar_hex ((Nat.div_lt_iff_lt_mul (by norm_num)).mpr (by omega))
  · exact hexDigitChar_hex (Nat.mod_lt b (by norm_num))

lemma bytesHex_length (bs : List ℕ) : (bytesHex bs).length = 2 * bs.length := by
  induction bs with
  | nil => simp [bytesHex]
  | cons b bs ih =>
    simp only [bytesHex, List.flatMap_cons, List.length_append,
      List.length_cons] at *
    simp [byteHex, ih]
    omega

lemma bytesHex_all_hex {bs : List ℕ} (hbs : ∀ b ∈ bs, b < 256) :
    ∀ c ∈ bytesHex bs, isLowerHex c = true := by
  intro c hc
  simp only [bytesHex, List.mem_flatMap] at hc
  obtain ⟨b, hb, hcb⟩ := hc
  exact byteHex_all_hex (hbs b hb) c hcb

/-! ## Laws of the concrete instantiation -/

lemma toyH_length : ∀ b, (toyH b).length = 32 := by
  intro b; simp [toyH]

lemma toyDecode_pointBytes :
    ∀ P : ZMod 5, P ≠ 0 → toyDecode (pointBytes toyX toyY P) = some P := by
  decide

lemma toyG_ord : addOrderOf (1 : ZMod 5) = 5 :=
  ZMod.addOrderOf_one 5

lemma toy_prime : Nat.Prime 5 := by norm_num

/-! ## The claims -/

/-- C1: for every byte string `p` (including the empty string) and every key
pair `(d, Q = d·G)` produced together, decrypting with `d` the ciphertext
obtained by encrypting `p` under `Q` (the full retrying encryption
operation, in its default `C1C3C2` mode) returns exactly `p`. -/
theorem claim_C1_roundtrip {Pt : Type} [AddCommGroup Pt] [DecidableEq Pt]
    (G : Pt) (xC yC : Pt → ℕ) (decodePt : List ℕ → Option Pt)
    (H : List ℕ → List ℕ) (d : ℕ) (ks : List ℕ) (p ct : List ℕ)
    (hH : ∀ b, (H b).length = 32)
    (hdec : ∀ P : Pt, P ≠ 0 → decodePt (pointBytes xC yC P) = some P)
    (henc : encryptLoop G xC yC H (d • G) ks p = .ok ct) :
    decrypt xC yC decodePt H d ct = .ok p :=
  encryptLoop_roundtrip G xC yC decodePt H hH hdec ks ct henc

/-- Witness for C1 at a concrete instantiation: private scalar 2, ephemeral
scalar 3, plaintext the two bytes `[104, 105]`. -/
theorem claim_C1_roundtrip_witness :
    decrypt toyX toyY toyDecode toyH 2
      ((encryptLoop (1 : ZMod 5) toyX toyY toyH ((2 : ℕ) • (1 : ZMod 5))
        [3] [104, 105]).toOption.getD []) = .ok [104, 105] :=
  claim_C1_roundtrip (1 : ZMod 5) toyX toyY toyDecode toyH 2 [3] [104, 105]
    _ toyH_length toyDecode_pointBytes rfl

/-- C2: for the zero-length plaintext and every valid public key `d·G`,
encryption succeeds (for any admissible ephemeral scalar), the `C2`
component of the produced ciphertext is the empty byte string, the `C3`
component is the hash of the bare coordinate concatenation `x2 ∥ y2` (the
MAC over the empty plaintext concatenation), and the total ciphertext is
exactly 97 bytes. -/
theorem claim_C2_empty_plaintext {Pt : Type} [AddCommGroup Pt]
    [DecidableEq Pt] (G : Pt) (xC yC : Pt → ℕ) (H : List ℕ → List ℕ)
    (n d k : ℕ)
    (hH : ∀ b, (H b).length = 32)
    (hord : addOrderOf G = n) (hprime : n.Prime)
    (hk0 : 0 < k) (hkn : k < n) (hd0 : 0 < d) (hdn : d < n) :
    encryptWith G xC yC H (d • G) k [] =
      some (assemble .C1C3C2 (pointBytes xC yC (k • G)) []
        (H (zBytes xC yC (k • d • G)))) ∧
    (assemble .C1C3C2 (pointBytes xC yC (k • G)) []
        (H (zBytes xC yC (k • d • G)))).length = 97 := by
  have hS : k • d • G ≠ 0 := prod_nsmul_ne_zero hord hprime hk0 hkn hd0 hdn
  constructor
  · simp [encryptWith, hS, kdf, kdfBlocks, degenerate, maskBytes, mac,
      zBytes]
  · rw [assemble_length, pointBytes_length, hH]
    simp

/-- Witness for C2 at a concrete instantiation: group order 5, private
scalar 2, ephemeral scalar 3. -/
theorem claim_C2_empty_plaintext_witness :
    encryptWith (1 : ZMod 5) toyX toyY toyH ((2 : ℕ) • (1 : ZMod 5)) 3 [] =
      some (assemble .C1C3C2 (pointBytes toyX toyY ((3 : ℕ) • (1 : ZMod 5)))
        [] (toyH (zBytes toyX toyY ((3 : ℕ) • (2 : ℕ) • (1 : ZMod 5))))) ∧
    (assemble .C1C3C2 (pointBytes toyX toyY ((3 : ℕ) • (1 : ZMod 5))) []
        (toyH (zBytes toyX toyY ((3 : ℕ) • (2 : ℕ) • (1 : ZMod 5))))).length =
      97 :=
  claim_C2_empty_plaintext (1 : ZMod 5) toyX toyY toyH 5 2 3 toyH_length
    toyG_ord toy_prime (by decide) (by decide) (by decide) (by decide)

/-- C3: for every ciphertext of admissible length and every private key,
decryption returns the plaintext of the `C1C3C2` attempt whenever that
attempt passes, and the plaintext of the `C1C2C3` attempt whenever the
`C1C3C2` attempt fails and the `C1C2C3` attempt passes. -/
theorem claim_C3_layout_order {Pt : Type} [AddCommGroup Pt] [DecidableEq Pt]
    (xC yC : Pt → ℕ) (decodePt : List ℕ → Option Pt) (H : List ℕ → List ℕ)
    (d : ℕ) (ct pt1 pt2 : List ℕ) (hlen : 97 ≤ ct.length) :
    (attemptDecrypt xC yC decodePt H d ct .C1C3C2 = some pt1 →
      decrypt xC yC decodePt H d ct = .ok pt1) ∧
    (attemptDecrypt xC yC decodePt H d ct .C1C3C2 = none →
      attemptDecrypt xC yC decodePt H d ct .C1C2C3 = some pt2 →
      decrypt xC yC decodePt H d ct = .ok pt2) := by
  have hno : ¬ ct.length < 97 := by omega
  constructor
  · intro h1
    simp [decrypt, hno, h1]
  · intro h1 h2
    simp [decrypt, hno, h1, h2]

/-- Witness for C3 at a concrete instantiation: a valid 99-byte ciphertext
whose first-layout attempt passes. -/
theorem claim_C3_layout_order_witness :
    decrypt toyX toyY toyDecode toyH 2
      ((encryptWith (1 : ZMod 5) toyX toyY toyH ((2 : ℕ) • (1 : ZMod 5)) 3
        [104, 105]).getD []) = .ok [104, 105] :=
  (claim_C3_layout_order toyX toyY toyDecode toyH 2
    ((encryptWith (1 : ZMod 5) toyX toyY toyH ((2 : ℕ) • (1 : ZMod 5)) 3
      [104, 105]).getD []) [104, 105] [104, 105] (by decide)).1 (by decide)

/-- C4: whenever both layout attempts fail on a ciphertext of admissible
length, decryption reports the single uniform `DecryptionFailed` error,
regardless of which internal sub-step made each attempt fail. -/
theorem claim_C4_uniform_failure {Pt : Type} [AddCommGroup Pt]
    [DecidableEq Pt] (xC yC : Pt → ℕ) (decodePt : List ℕ → Option Pt)
    (H : List ℕ → List ℕ) (d : ℕ) (ct : List ℕ) (hlen : 97 ≤ ct.length)
    (h1 : attemptDecrypt xC yC decodePt H d ct .C1C3C2 = none)
    (h2 : attemptDecrypt xC yC decodePt H d ct .C1C2C3 = none) :
    decrypt xC yC decodePt H d ct = .error .DecryptionFailed := by
  have hno : ¬ ct.length < 97 := by omega
  simp [decrypt, hno, h1, h2]

/-- Witness for C4 at a concrete instantiation: the 97-byte all-zero
ciphertext, rejected by both attempts. -/
theorem claim_C4_uniform_failure_witness :
    decrypt toyX toyY toyDecode toyH 2 (List.replicate 97 0) =
      .error .DecryptionFailed :=
  claim_C4_uniform_failure toyX toyY toyDecode toyH 2 (List.replicate 97 0)
    (by decide) (by decide) (by decide)

/-- C5: for every private scalar `d` in `[1, n)` with `n ≤ 2^256`, the key
pair derived from `d` has a private key of exactly 64 lowercase hex
characters and a public key of exactly 130 lowercase hex characters whose
first two characters are `04`. -/
theorem claim_C5_key_format {Pt : Type} [AddCommGroup Pt] (G : Pt)
    (xC yC : Pt → ℕ) (n d : ℕ) (hd0 : 0 < d) (hdn : d < n)
    (hn : n ≤ 2 ^ 256) :
    (generateKeyPair G xC yC d).1.length = 64 ∧
    (generateKeyPair G xC yC d).1.all isLowerHex = true ∧
    (generateKeyPair G xC yC d).2.length = 130 ∧
    (generateKeyPair G xC yC d).2.take 2 = ['0', '4'] ∧
    (generateKeyPair G xC yC d).2.all isLowerHex = true := by
  have h16 : d < 16 ^ 64 := by
    have h2 : (2 : ℕ) ^ 256 = 16 ^ 64 := by norm_num
    exact lt_of_lt_of_le hdn (le_of_le_of_eq hn h2)
  refine ⟨privHex_length h16, ?_, ?_, ?_, ?_⟩
  · exact List.all_eq_true.mpr (privHex_all_hex d)
  · show (bytesHex (pointBytes xC yC (d • G))).length = 130
    rw [bytesHex_length, pointBytes_length]
  · show (bytesHex (pointBytes xC yC (d • G))).take 2 = ['0', '4']
    have hsplit : bytesHex (pointBytes xC yC (d • G)) =
        byteHex 4 ++ bytesHex (bytes32 (xC (d • G)) ++ bytes32 (yC (d • G))) := by
      simp [bytesHex, pointBytes]
    rw [hsplit, take_append_of_length _ _ _ (by decide : (byteHex 4).length = 2)]
    decide
  · exact List.all_eq_true.mpr (bytesHex_all_hex (pointBytes_lt xC yC (d • G)))

/-- Witness for C5 at a concrete instantiation: private scalar 2 in the
order-5 group. -/
theorem claim_C5_key_format_witness :
    (generateKeyPair (1 : ZMod 5) toyX toyY 2).1.length = 64 ∧
    (generateKeyPair (1 : ZMod 5) toyX toyY 2).1.all isLowerHex = true ∧
    (generateKeyPair (1 : ZMod 5) toyX toyY 2).2.length = 130 ∧
    (generateKeyPair (1 : ZMod 5) toyX toyY 2).2.take 2 = ['0', '4'] ∧
    (generateKeyPair (1 : ZMod 5) toyX toyY 2).2.all isLowerHex = true :=
  claim_C5_key_format (1 : ZMod 5) toyX toyY 5 2 (by decide) (by decide)
    (by decide)

/-- C6: every ciphertext shorter than 97 bytes is rejected by decryption
with the distinct `InvalidCiphertextLength` error, before any layout
attempt. -/
theorem claim_C6_short_ciphertext {Pt : Type} [AddCommGroup Pt]
    [DecidableEq Pt] (xC yC : Pt → ℕ) (decodePt : List ℕ → Option Pt)
    (H : List ℕ → List ℕ) (d : ℕ) (ct : List ℕ) (hlen : ct.length < 97) :
    decrypt xC yC decodePt H d ct = .error .InvalidCiphertextLength := by
  simp [decrypt, hlen]

/-- Witness for C6 at a concrete instantiation: a 3-byte ciphertext. -/
theorem claim_C6_short_ciphertext_witness :
    decrypt toyX toyY toyDecode toyH 2 [1, 2, 3] =
      .error .InvalidCiphertextLength :=
  claim_C6_short_ciphertext toyX toyY toyDecode toyH 2 [1, 2, 3] (by decide)

/-- C7: two encryption calls on the same plaintext and public key that draw
distinct ephemeral scalars (both in `[1, n)`) produce distinct
ciphertexts. -/
theorem claim_C7_randomization {Pt : Type} [AddCommGroup Pt] [DecidableEq Pt]
    (G : Pt) (xC yC : Pt → ℕ) (decodePt : List ℕ → Option Pt)
    (H : List ℕ → List ℕ) (Q : Pt) (n k1 k2 : ℕ) (p ct1 ct2 : List ℕ)
    (mode : EncodingMode)
    (hdec : ∀ P : Pt, P ≠ 0 → decodePt (pointBytes xC yC P) = some P)
    (hord : addOrderOf G = n)
    (hk10 : 0 < k1) (hk1n : k1 < n) (hk20 : 0 < k2) (hk2n : k2 < n)
    (hne : k1 ≠ k2)
    (henc1 : encryptWith G xC yC H Q k1 p mode = some ct1)
    (henc2 : encryptWith G xC yC H Q k2 p mode = some ct2) :
    ct1 ≠ ct2 := by
  intro heq
  obtain ⟨_, _, hct1⟩ := encryptWith_some_elim G xC yC H henc1
  obtain ⟨_, _, hct2⟩ := encryptWith_some_elim G xC yC H henc2
  have h1 : ct1.take 65 = pointBytes xC yC (k1 • G) := by
    rw [hct1]
    cases mode <;>
      (show (pointBytes xC yC (k1 • G) ++ _ ++ _).take 65 = _
       rw [List.append_assoc]
       exact take_append_of_length _ _ _ (pointBytes_length _ _ _))
  have h2 : ct2.take 65 = pointBytes xC yC (k2 • G) := by
    rw [hct2]
    cases mode <;>
      (show (pointBytes xC yC (k2 • G) ++ _ ++ _).take 65 = _
       rw [List.append_assoc]
       exact take_append_of_length _ _ _ (pointBytes_length _ _ _))
  have hPB : pointBytes xC yC (k1 • G) = pointBytes xC yC (k2 • G) := by
    rw [← h1, ← h2, heq]
  have e1 : some (k1 • G) = some (k2 • G) := by
    rw [← hdec _ (nsmul_ne_zero_of_lt_ord hord hk10 hk1n),
      ← hdec _ (nsmul_ne_zero_of_lt_ord hord hk20 hk2n), hPB]
  have e2 : k1 • G = k2 • G := Option.some.inj e1
  rcases Nat.lt_or_ge k1 k2 with h | h
  · exact nsmul_inj_of_lt hord h hk2n e2
  · exact nsmul_inj_of_lt hord (by omega) hk1n e2.symm

/-- Witness for C7 at a concrete instantiation: ephemeral scalars 3 and 4
on the same plaintext and public key. -/
theorem claim_C7_randomization_witness :
    ((encryptWith (1 : ZMod 5) toyX toyY toyH ((2 : ℕ) • (1 : ZMod 5)) 3
      [104, 105]).getD []) ≠
    ((encryptWith (1 : ZMod 5) toyX toyY toyH ((2 : ℕ) • (1 : ZMod 5)) 4
      [104, 105]).getD []) :=
  claim_C7_randomization (1 : ZMod 5) toyX toyY toyDecode toyH
    ((2 : ℕ) • (1 : ZMod 5)) 5 3 4 [104, 105] _ _ .C1C3C2
    toyDecode_pointBytes toyG_ord (by decide) (by decide) (by decide)
    (by decide) (by decide) rfl rfl

/-- C8: encryption takes an `EncodingMode` parameter defaulting to
`C1C3C2`; a ciphertext assembled in the `C1C3C2` layout decrypts to the
original plaintext, and a ciphertext assembled in the `C1C2C3` layout
parses back to the original plaintext under the `C1C2C3` attempt, so that
decryption returns it through the fallback whenever the misaligned
`C1C3C2` attempt on it fails MAC verification. -/
theorem claim_C8_cross_mode {Pt : Type} [AddCommGroup Pt] [DecidableEq Pt]
    (G : Pt) (xC yC : Pt → ℕ) (decodePt : List ℕ → Option Pt)
    (H : List ℕ → List ℕ) (d k1 k2 : ℕ) (p ct1 ct2 : List ℕ)
    (hH : ∀ b, (H b).length = 32)
    (hdec : ∀ P : Pt, P ≠ 0 → decodePt (pointBytes xC yC P) = some P)
    (henc1 : encryptWith G xC yC H (d • G) k1 p .C1C3C2 = some ct1)
    (henc2 : encryptWith G xC yC H (d • G) k2 p .C1C2C3 = some ct2)
    (hfb : attemptDecrypt xC yC decodePt H d ct2 .C1C3C2 = none) :
    (encryptWith G xC yC H (d • G) k1 p =
      encryptWith G xC yC H (d • G) k1 p .C1C3C2) ∧
    decrypt xC yC decodePt H d ct1 = .ok p ∧
    attemptDecrypt xC yC decodePt H d ct2 .C1C2C3 = some p ∧
    decrypt xC yC decodePt H d ct2 = .ok p := by
  have hatt2 := attemptDecrypt_roundtrip_C1C2C3 G xC yC decodePt H hH hdec
    henc2
  have hlen2 := encryptWith_length G xC yC H hH henc2
  have hno2 : ¬ ct2.length < 97 := by omega
  refine ⟨rfl, ?_, hatt2, ?_⟩
  · exact decrypt_roundtrip_of_encryptWith G xC yC decodePt H hH hdec henc1
  · simp [decrypt, hno2, hfb, hatt2]

/-- Witness for C8 at a concrete instantiation: both layouts produced with
ephemeral scalar 3 and private scalar 2. -/
theorem claim_C8_cross_mode_witness :
    (encryptWith (1 : ZMod 5) toyX toyY toyH ((2 : ℕ) • (1 : ZMod 5)) 3
      [104, 105] =
      encryptWith (1 : ZMod 5) toyX toyY toyH ((2 : ℕ) • (1 : ZMod 5)) 3
        [104, 105] .C1C3C2) ∧
    decrypt toyX toyY toyDecode toyH 2
      ((encryptWith (1 : ZMod 5) toyX toyY toyH ((2 : ℕ) • (1 : ZMod 5)) 3
        [104, 105] .C1C3C2).getD []) = .ok [104, 105] ∧
    attemptDecrypt toyX toyY toyDecode toyH 2
      ((encryptWith (1 : ZMod 5) toyX toyY toyH ((2 : ℕ) • (1 : ZMod 5)) 3
        [104, 105] .C1C2C3).getD []) .C1C2C3 = some [104, 105] ∧
    decrypt toyX toyY toyDecode toyH 2
      ((encryptWith (1 : ZMod 5) toyX toyY toyH ((2 : ℕ) • (1 : ZMod 5)) 3
        [104, 105] .C1C2C3).getD []) = .ok [104, 105] :=
  claim_C8_cross_mode (1 : ZMod 5) toyX toyY toyDecode toyH 2 3 3
    [104, 105] _ _ toyH_length toyDecode_pointBytes rfl rfl (by decide)

/-- C9: the Node-level decrypt resolves, on a zero exit code, with the
child stdout passed through `trim()`; in particular the value recovered
for a plaintext printed with a trailing newline is the trimmed plaintext,
which differs from the original whenever the original carries leading or
trailing whitespace. -/
theorem claim_C9_decrypt_trims (out err p : List Char)
    (hp : trimChars p ≠ p) :
    nodeDecryptResolve (some 0) out err = .ok (trimChars out) ∧
    nodeDecryptResolve (some 0) (p ++ ['\n']) err = .ok (trimChars p) ∧
    nodeDecryptResolve (some 0) (p ++ ['\n']) err ≠ .ok p := by
  have hnl : isWs '\n' = true := by decide
  have htrim : trimChars (p ++ ['\n']) = trimChars p := by
    simp [trimChars, trimRight, List.reverse_append, List.dropWhile_cons,
      hnl]
  refine ⟨by simp [nodeDecryptResolve], ?_, ?_⟩
  · simp [nodeDecryptResolve, htrim]
  · simp only [nodeDecryptResolve, if_pos rfl, htrim]
    intro hcontra
    exact hp (Except.ok.inj hcontra)

/-- Witness for C9 at concrete strings: stdout `" x"`, plaintext
`" hi "`. -/
theorem claim_C9_decrypt_trims_witness :
    nodeDecryptResolve (some 0) [' ', 'x'] [] =
      .ok (trimChars [' ', 'x']) ∧
    nodeDecryptResolve (some 0) ([' ', 'h', 'i', ' '] ++ ['\n']) [] =
      .ok (trimChars [' ', 'h', 'i', ' ']) ∧
    nodeDecryptResolve (some 0) ([' ', 'h', 'i', ' '] ++ ['\n']) [] ≠
      .ok [' ', 'h', 'i', ' '] :=
  claim_C9_decrypt_trims [' ', 'x'] [] [' ', 'h', 'i', ' '] (by decide)

/-- C10: when no public key was supplied to the call nor to the
constructor, the Node-level encrypt rejects with the fixed message
`Public key is required for encryption` and spawns no child process. -/
theorem claim_C10_missing_pubkey (priv jar pt : List Char) :
    nodeEncrypt (mkSM2Service priv none) jar pt none =
      .rejected "Public key is required for encryption".data ∧
    isSpawned (nodeEncrypt (mkSM2Service priv none) jar pt none) = false := by
  constructor <;> simp [nodeEncrypt, mkSM2Service, jsOr, isSpawned]
